import Mathlib

/-!
# Governance contract engine and staking manager

A shallow embedding of `governance/contract.go` (the `ContractEngine`) and of
`reward/stakingManager.go` (the `stakingManager`), followed by theorems about
them.

Conventions of the embedding:

* a Go `uint64` is a `Nat` below `2 ^ 64`; an addition or subtraction that can
  wrap is written with an explicit `% 2 ^ 64`;
* a Go pointer that may be `nil` is an `Option`;
* a Go result pair `(value, err)` is a Lean pair of two `Option`s, `err = none`
  standing for a `nil` error;
* a run-time panic (nil dereference, integer division by zero) is the outer
  `none` of an `Option` result;
* every operation that can reach a collaborator returns, next to its result,
  the list of collaborator invocations it made, in order.
-/

/-! ## Definitions -/

namespace governance

/-- A `common.Address`: twenty bytes, read as a number. -/
abbrev Address := Nat

/-- Modelled from the spec: `common.EmptyAddress`, whose source is not part of
the excerpt; true exactly on the zero/empty address `common.Address{}`. -/
def EmptyAddress (addr : Address) : Bool := addr == 0

/-- The errors an engine call can hand back: the package-level
`errContractEngineNotReady`, or whatever error the contract caller produced. -/
inductive EngineError where
  | errContractEngineNotReady
  | callerError (code : Nat)
deriving DecidableEq

/-- Modelled from the spec: `params.GovParamSet`, a keyed set of named
governance parameters; its declaration is not part of the excerpt. -/
structure GovParamSet where
  items : List (Nat × Nat)
deriving DecidableEq

/-- Modelled from the spec: `params.NewGovParamSet`, the empty parameter set an
engine starts with. -/
def NewGovParamSet : GovParamSet := ⟨[]⟩

/-- The `Governance` section of `params.ChainConfig`, as far as the engine reads
it. -/
structure GovernanceConfig where
  GovParamContract : Address
deriving DecidableEq

/-- The part of `params.ChainConfig` the engine reads; `Governance` is a pointer. -/
structure ChainConfig where
  Governance : Option GovernanceConfig
deriving DecidableEq

/-- What the engine sees through the `blockChain` interface: the number of the
current header (a `big.Int`) and the state the contract is read from. -/
structure blockChain where
  Number : Nat
  stateRoot : Nat
deriving DecidableEq

/-- Addition of two `uint64` values, wrapping around as Go does. -/
def addUint64 (a b : Nat) : Nat := (a + b) % 2 ^ 64

/-- The value of `chain.CurrentHeader().Number.Uint64()`. -/
def blockChain.headUint64 (chain : blockChain) : Nat := chain.Number % 2 ^ 64

/-- The `contractCaller` the engine builds for one read. -/
structure contractCaller where
  chainConfig : Option ChainConfig
  chain : blockChain
  contractAddr : Address
deriving DecidableEq

/-- A Go result pair `(*params.GovParamSet, error)`. -/
abbrev ParamsResult := Option GovParamSet × Option EngineError

/-- The collaborator `contractCaller.getAllParamsAt`, whose body is outside the
excerpt: any function of the caller and the block number. -/
abbrev Reader := contractCaller → Nat → ParamsResult

/-- One invocation of the contract reader: the caller it ran on and the block
number it was given. -/
abbrev ReaderCall := contractCaller × Nat

structure ContractEngine where
  chainConfig : Option ChainConfig
  currentParams : Option GovParamSet
  chain : Option blockChain
deriving DecidableEq

def NewContractEngine (config : Option ChainConfig) : ContractEngine :=
  { chainConfig := config, currentParams := some NewGovParamSet, chain := none }

def ContractEngine.SetBlockchain (e : ContractEngine) (chain : Option blockChain) :
    ContractEngine :=
  { e with chain := chain }

/-- Params effective at upcoming block (head+1). -/
def ContractEngine.Params (e : ContractEngine) : Option GovParamSet :=
  e.currentParams

/-- Return the GovParamContract address effective at given block number; `none`
is the nil dereference of `e.chainConfig`. -/
def ContractEngine.contractAddrAt (e : ContractEngine) (_num : Nat) : Option Address :=
  match e.chainConfig with
  | none => none
  | some config =>
    match config.Governance with
    | some g => some g.GovParamContract
    | none => some 0

/-- The body of `contractGetAllParamsAt`: the result pair and the reader
invocations made; `none` is a panic. -/
def ContractEngine.contractGetAllParamsAt (rd : Reader) (e : ContractEngine) (num : Nat) :
    Option (ParamsResult × List ReaderCall) :=
  match e.chain with
  | none => some ((none, some .errContractEngineNotReady), [])
  | some chain =>
    match e.contractAddrAt num with
    | none => none
    | some addr =>
      if EmptyAddress addr then
        some ((none, some .errContractEngineNotReady), [])
      else
        let caller : contractCaller :=
          { chainConfig := e.chainConfig, chain := chain, contractAddr := addr }
        some (rd caller num, [(caller, num)])

/-- Params effective at requested block (num). -/
def ContractEngine.ParamsAt (rd : Reader) (e : ContractEngine) (num : Nat) :
    Option (ParamsResult × List ReaderCall) :=
  match e.chain with
  | none => some ((none, some .errContractEngineNotReady), [])
  | some chain =>
    let head := chain.headUint64
    let num := if num > head then addUint64 head 1 else num
    match e.contractGetAllParamsAt rd num with
    | none => none
    | some ((pset, err), calls) =>
      if err.isSome then some ((none, err), calls) else some ((pset, none), calls)

/-- What `UpdateParams` leaves behind: the engine, the returned error and the
reader invocations made. -/
structure UpdateOutcome where
  engine : ContractEngine
  err : Option EngineError
  calls : List ReaderCall
deriving DecidableEq

/-- If UpdateParam fails, leave currentParams as-is; `none` is a panic. -/
def ContractEngine.UpdateParams (rd : Reader) (e : ContractEngine) : Option UpdateOutcome :=
  match e.chain with
  | none => some { engine := e, err := some .errContractEngineNotReady, calls := [] }
  | some chain =>
    let head := chain.headUint64
    match e.contractGetAllParamsAt rd (addUint64 head 1) with
    | none => none
    | some ((pset, err), calls) =>
      if err.isSome then some { engine := e, err := err, calls := calls }
      else some { engine := { e with currentParams := pset }, err := none, calls := calls }

/-- One thing that happens to an engine: a call of one of its methods, or the
attached chain moving on (a new head, a new state) behind the engine's
reference. -/
inductive EngineEvent where
  | SetBlockchain (chain : Option blockChain)
  | ParamsAt (num : Nat)
  | UpdateParams
  | chainMoved (chain : blockChain)
deriving DecidableEq

/-- The engine after one event, and whether the event was an `UpdateParams` that
returned `nil`. A call that panics has written nothing. -/
def ContractEngine.after (rd : Reader) (e : ContractEngine) : EngineEvent → ContractEngine × Bool
  | .SetBlockchain chain => (e.SetBlockchain chain, false)
  | .ParamsAt _ => (e, false)
  | .UpdateParams =>
    match e.UpdateParams rd with
    | none => (e, false)
    | some out => (out.engine, out.err.isNone)
  | .chainMoved chain => ({ e with chain := e.chain.map (fun _ => chain) }, false)

/-- The engine after a sequence of events, and the number of `UpdateParams`
calls in it that returned `nil`. -/
def ContractEngine.afterAll (rd : Reader) (e : ContractEngine) :
    List EngineEvent → ContractEngine × Nat
  | [] => (e, 0)
  | ev :: rest =>
    let (e1, ok) := e.after rd ev
    let (e2, n) := ContractEngine.afterAll rd e1 rest
    (e2, (if ok then 1 else 0) + n)

/-! ### Concrete values used to instantiate the theorems -/

/-- A chain configuration that names a governance contract. -/
def sampleConfig : ChainConfig := ⟨some ⟨7⟩⟩

/-- A chain configuration without a `Governance` section. -/
def bareConfig : ChainConfig := ⟨none⟩

/-- A chain whose head is block 10. -/
def sampleChain : blockChain := ⟨10, 0⟩

/-- An engine built from `sampleConfig` and attached to `sampleChain`. -/
def sampleEngine : ContractEngine :=
  (NewContractEngine (some sampleConfig)).SetBlockchain (some sampleChain)

/-- A reader that succeeds, answering with a set that records the block number. -/
def okReader : Reader := fun _ num => (some ⟨[(1, num)]⟩, none)

/-- A reader whose call fails. -/
def failingReader : Reader := fun _ _ => (none, some (.callerError 1))

/-- The caller `sampleEngine` builds. -/
def sampleCaller : contractCaller := ⟨some sampleConfig, sampleChain, 7⟩

end governance

namespace reward

/-- Subtraction of two `uint64` values, wrapping around as Go does. -/
def subUint64 (a b : Nat) : Nat := (a + 2 ^ 64 - b % 2 ^ 64) % 2 ^ 64

/-- Modelled from the spec: `StakingInfo`, whose declaration is not part of the
excerpt: an immutable record of validator addresses and stake weights as of one
staking-epoch block number. -/
structure StakingInfo where
  BlockNum : Nat
  CouncilNodeAddrs : List Nat
  CouncilStakingAmounts : List Nat
deriving DecidableEq

/-- Modelled from the spec: what a read of the address-book contract decodes to,
before it is recorded as the staking info of a block number. -/
structure AddressBookData where
  nodeAddrs : List Nat
  stakingAmounts : List Nat
deriving DecidableEq

/-- The error of a failed address-book read. -/
abbrev AddressBookError := Nat

/-- Modelled from the spec: `addressBookManager`, the staking contract reader
(`readStakingInfoAt(height) -> Result<StakingInfo, Error>`); its source is not
part of the excerpt. The field is what a read answers at the time of the call. -/
structure addressBookManager where
  readAt : Nat → Except AddressBookError AddressBookData

/-- Modelled from the spec: `addressBookManager.getStakingInfoFromAddressBook`,
which resolves the staking info as of the given block number, or fails. -/
def addressBookManager.getStakingInfoFromAddressBook (abm : addressBookManager) (blockNum : Nat) :
    Except AddressBookError StakingInfo :=
  match abm.readAt blockNum with
  | .error err => .error err
  | .ok data =>
    .ok { BlockNum := blockNum, CouncilNodeAddrs := data.nodeAddrs,
          CouncilStakingAmounts := data.stakingAmounts }

/-- Modelled from the spec: `stakingInfoCache`, whose source is not part of the
excerpt: a mapping from staking-epoch block number to staking info. The newest
entry is at the head of `cells`. The spec leaves open what an insert under a key
that is already present does, keep the first value or take the last write;
`lastWrite` records which of the two this cache does. -/
structure stakingInfoCache where
  cells : List (Nat × StakingInfo)
  lastWrite : Bool
deriving DecidableEq

/-- Modelled from the spec: `newStakingInfoCache`, the empty cache; its re-insert
is the last-write one of the spec's description of `updateStakingCache`. -/
def newStakingInfoCache : stakingInfoCache := ⟨[], true⟩

/-- Modelled from the spec: `stakingInfoCache.get`, the entry stored under the
block number, `none` (Go `nil`) when there is none. -/
def stakingInfoCache.get (sc : stakingInfoCache) (blockNum : Nat) : Option StakingInfo :=
  match sc.cells.find? (fun cell => cell.1 == blockNum) with
  | some cell => some cell.2
  | none => none

/-- Modelled from the spec: `stakingInfoCache.add`, which stores the staking info
under its own block number. Under a key that is not present it adds an entry;
under a key that is present it replaces the value when the cache is last-write
and leaves the cache as it is when the cache keeps the first write. No entry
under another key is touched, and none is evicted. -/
def stakingInfoCache.add (sc : stakingInfoCache) (stakingInfo : StakingInfo) : stakingInfoCache :=
  match sc.get stakingInfo.BlockNum with
  | some _ =>
    if sc.lastWrite then
      { sc with cells := sc.cells.map (fun cell =>
          if cell.1 == stakingInfo.BlockNum then (stakingInfo.BlockNum, stakingInfo) else cell) }
    else sc
  | none => { sc with cells := (stakingInfo.BlockNum, stakingInfo) :: sc.cells }

/-- Modelled from the spec: the proposer policy the governance helper reports; the
declaration of `params.WeightedRandom` and of its sibling constants is not part
of the excerpt, the weight-based policy is told apart from every other one. -/
inductive ProposerPolicy where
  | WeightedRandom
  | other (code : Nat)
deriving DecidableEq

/-- The `governanceHelper` interface: what its two methods answer at the time of
the call; `StakingUpdateInterval` is a `uint64`. -/
structure governanceHelper where
  ProposerPolicy : ProposerPolicy
  StakingUpdateInterval : Nat
deriving DecidableEq

/-- The fields of `stakingManager` that its methods read or write. `abm` and `gh`
are references to collaborators: the fields hold what these answer when the
method runs. -/
structure stakingManager where
  abm : addressBookManager
  sic : stakingInfoCache
  gh : governanceHelper

/-- What a method of the manager leaves behind: its return value, the manager,
and the block numbers it fetched from the address book, in order. -/
structure Outcome (α : Type) where
  value : α
  sm : stakingManager
  fetches : List Nat

/-- The function `updateStakingCache` updates staking cache with a stakingInfo of
a given block number. -/
def stakingManager.updateStakingCache (sm : stakingManager) (blockNum : Nat) :
    Outcome (Except AddressBookError StakingInfo) :=
  match sm.abm.getStakingInfoFromAddressBook blockNum with
  | .error err => { value := .error err, sm := sm, fetches := [blockNum] }
  | .ok stakingInfo =>
    { value := .ok stakingInfo, sm := { sm with sic := sm.sic.add stakingInfo },
      fetches := [blockNum] }

/-- The function `getStakingInfo` returns a corresponding stakingInfo for a
blockNum. `CalcStakingBlockNumber` stands for `params.CalcStakingBlockNumber`,
whose source is not part of the excerpt: any function of the block number, `none`
when it panics. -/
def stakingManager.getStakingInfo (CalcStakingBlockNumber : Nat → Option Nat)
    (sm : stakingManager) (blockNum : Nat) : Option (Outcome (Option StakingInfo)) :=
  match CalcStakingBlockNumber blockNum with
  | none => none
  | some stakingBlockNumber =>
    match sm.sic.get stakingBlockNumber with
    | some cachedStakingInfo => some { value := some cachedStakingInfo, sm := sm, fetches := [] }
    | none =>
      let r := sm.updateStakingCache stakingBlockNumber
      match r.value with
      | .error _ => some { value := none, sm := r.sm, fetches := r.fetches }
      | .ok stakingInfo => some { value := some stakingInfo, sm := r.sm, fetches := r.fetches }

/-- A `blockchain.ChainHeadEvent`, as far as the manager reads it: the number of
the new head block (a `big.Int`). -/
structure ChainHeadEvent where
  Number : Nat
deriving DecidableEq

/-- The value of `ev.Block.NumberU64()`. -/
def ChainHeadEvent.NumberU64 (ev : ChainHeadEvent) : Nat := ev.Number % 2 ^ 64

/-- The staking block number the background refresh computes,
`number - number%interval` on `uint64`; `none` is the division-by-zero panic. -/
def stakingBlockNum (number interval : Nat) : Option Nat :=
  if interval = 0 then none else some (subUint64 number (number % interval))

/-- The body of the `case ev := <-sm.chainHeadCh` branch of
`handleChainHeadEvent`: the handling of one head event. -/
def stakingManager.handleEvent (sm : stakingManager) (ev : ChainHeadEvent) :
    Option (Outcome Unit) :=
  if sm.gh.ProposerPolicy = .WeightedRandom then
    match stakingBlockNum ev.NumberU64 sm.gh.StakingUpdateInterval with
    | none => none
    | some n =>
      match sm.sic.get n with
      | none =>
        let r := sm.updateStakingCache n
        some { value := (), sm := r.sm, fetches := r.fetches }
      | some _ => some { value := (), sm := sm, fetches := [] }
  else
    some { value := (), sm := sm, fetches := [] }

/-- One receive from `sm.chainHeadCh`: the event, and what the two collaborators
answer while it is handled. -/
structure Delivery where
  ev : ChainHeadEvent
  gh : governanceHelper
  abm : addressBookManager

/-- The loop of `handleChainHeadEvent` over the events delivered before the
subscription ends, in delivery order; it returns when the stream is closed. -/
def stakingManager.handleChainHeadEvent (sm : stakingManager) :
    List Delivery → Option (Outcome Unit)
  | [] => some { value := (), sm := sm, fetches := [] }
  | d :: rest =>
    match ({ sm with gh := d.gh, abm := d.abm } : stakingManager).handleEvent d.ev with
    | none => none
    | some r =>
      match stakingManager.handleChainHeadEvent r.sm rest with
      | none => none
      | some r2 => some { value := (), sm := r2.sm, fetches := r.fetches ++ r2.fetches }

/-- The block numbers under which the cache holds an entry, newest first. -/
def stakingInfoCache.keys (sc : stakingInfoCache) : List Nat :=
  sc.cells.map (fun cell => cell.1)

/-- Modelled from the spec: `params.CalcStakingBlockNumber`, whose source is not
part of the excerpt: the height rounded down to the nearest multiple of the
configured staking-refresh interval, `H - (H mod I)`; `none` is the
division-by-zero panic of the remainder. -/
def CalcStakingBlockNumber (interval blockNum : Nat) : Option Nat :=
  if interval = 0 then none else some (blockNum - blockNum % interval)

/-- One call that reaches the cache: an on-demand `getStakingInfo`, a direct
`updateStakingCache`, or the handling of one head event by the background task. -/
inductive ManagerCall where
  | getStakingInfo (blockNum : Nat)
  | updateStakingCache (blockNum : Nat)
  | headEvent (ev : ChainHeadEvent)
deriving DecidableEq

/-- One call together with what the two collaborators answer while it runs. -/
structure ManagerStep where
  abm : addressBookManager
  gh : governanceHelper
  call : ManagerCall

/-- The manager after one call. A call that panics has written nothing. -/
def stakingManager.afterStep (CalcStakingBlockNumber : Nat → Option Nat) (sm : stakingManager)
    (step : ManagerStep) : stakingManager :=
  let m : stakingManager := { sm with abm := step.abm, gh := step.gh }
  match step.call with
  | .getStakingInfo blockNum =>
    match m.getStakingInfo CalcStakingBlockNumber blockNum with
    | none => m
    | some r => r.sm
  | .updateStakingCache blockNum => (m.updateStakingCache blockNum).sm
  | .headEvent ev =>
    match m.handleEvent ev with
    | none => m
    | some r => r.sm

/-- The manager after a sequence of calls, in order. -/
def stakingManager.afterSteps (CalcStakingBlockNumber : Nat → Option Nat) (sm : stakingManager) :
    List ManagerStep → stakingManager
  | [] => sm
  | step :: rest =>
    stakingManager.afterSteps CalcStakingBlockNumber (sm.afterStep CalcStakingBlockNumber step) rest

/-! ### Concrete values used to instantiate the theorems -/

/-- An address book that answers every read with other data than `okAbm`. -/
def otherAbm : addressBookManager := ⟨fun _ => .ok ⟨[31], [9]⟩⟩

/-- A canonicalization with epochs of 100 blocks. -/
def sampleCalc : Nat → Option Nat := fun blockNum => some (blockNum - blockNum % 100)

/-- An address book whose every read succeeds. -/
def okAbm : addressBookManager := ⟨fun _ => .ok ⟨[21, 22], [5, 7]⟩⟩

/-- An address book whose every read fails. -/
def failingAbm : addressBookManager := ⟨fun _ => .error 1⟩

/-- The staking info `okAbm` resolves for block 100. -/
def sampleInfo : StakingInfo := ⟨100, [21, 22], [5, 7]⟩

/-- A helper reporting the weight-based policy and an interval of 100 blocks. -/
def weightedGh : governanceHelper := ⟨.WeightedRandom, 100⟩

/-- The head events of heights 101, 150, 199 and 200, delivered under the
weight-based policy with an interval of 100 and an address book that answers. -/
def sampleDeliveries : List Delivery :=
  [⟨⟨101⟩, weightedGh, okAbm⟩, ⟨⟨150⟩, weightedGh, okAbm⟩, ⟨⟨199⟩, weightedGh, okAbm⟩,
   ⟨⟨200⟩, weightedGh, okAbm⟩]

/-- A helper reporting another policy. -/
def otherGh : governanceHelper := ⟨.other 0, 100⟩

/-- A manager with an empty cache whose address book fails. -/
def coldManager : stakingManager := ⟨failingAbm, newStakingInfoCache, weightedGh⟩

/-- A manager with an empty cache whose address book answers. -/
def freshManager : stakingManager := ⟨okAbm, newStakingInfoCache, weightedGh⟩

end reward

/-! ## Theorems -/

namespace governance

/-! ### Helper lemmas on the engine -/

theorem contractGetAllParamsAt_not_attached (rd : Reader) (e : ContractEngine) (num : Nat)
    (h : e.chain = none) :
    e.contractGetAllParamsAt rd num = some ((none, some .errContractEngineNotReady), []) := by
  simp [ContractEngine.contractGetAllParamsAt, h]

theorem contractGetAllParamsAt_attached (rd : Reader) (e : ContractEngine) (chain : blockChain)
    (num : Nat) (h : e.chain = some chain) :
    e.contractGetAllParamsAt rd num =
      match e.contractAddrAt num with
      | none => none
      | some addr =>
        if EmptyAddress addr then some ((none, some .errContractEngineNotReady), [])
        else some (rd ⟨e.chainConfig, chain, addr⟩ num, [(⟨e.chainConfig, chain, addr⟩, num)]) := by
  simp [ContractEngine.contractGetAllParamsAt, h]

theorem UpdateParams_engine_cases (rd : Reader) (e : ContractEngine) (out : UpdateOutcome)
    (h : e.UpdateParams rd = some out) :
    (out.err.isSome = true ∧ out.engine = e) ∨
      (out.err = none ∧ ∃ pset, out.engine = { e with currentParams := pset }) := by
  unfold ContractEngine.UpdateParams at h
  cases hc : e.chain with
  | none =>
    simp only [hc] at h
    cases h
    exact Or.inl ⟨rfl, rfl⟩
  | some chain =>
    simp only [hc] at h
    cases hg : e.contractGetAllParamsAt rd (addUint64 chain.headUint64 1) with
    | none => simp [hg] at h
    | some r =>
      obtain ⟨⟨pset, err⟩, calls⟩ := r
      simp only [hg] at h
      cases herr : err.isSome with
      | true =>
        simp only [herr, if_true, Option.some.injEq] at h
        subst h
        exact Or.inl ⟨herr, rfl⟩
      | false =>
        simp only [herr, Bool.false_eq_true, if_false, Option.some.injEq] at h
        subst h
        exact Or.inr ⟨rfl, pset, rfl⟩

theorem after_keeps_params (rd : Reader) (e : ContractEngine) (ev : EngineEvent)
    (h : (e.after rd ev).2 = false) : (e.after rd ev).1.Params = e.Params := by
  cases ev with
  | SetBlockchain chain => rfl
  | ParamsAt num => rfl
  | chainMoved chain => rfl
  | UpdateParams =>
    unfold ContractEngine.after at h ⊢
    cases hu : e.UpdateParams rd with
    | none => rfl
    | some out =>
      simp only [hu] at h ⊢
      rcases UpdateParams_engine_cases rd e out hu with ⟨_, heq⟩ | ⟨hnone, _⟩
      · rw [heq]
      · simp [hnone] at h

theorem afterAll_keeps_params (rd : Reader) (evs : List EngineEvent) :
    ∀ e : ContractEngine, (e.afterAll rd evs).2 = 0 → (e.afterAll rd evs).1.Params = e.Params := by
  induction evs with
  | nil => intro e _; rfl
  | cons ev rest ih =>
    intro e h
    simp only [ContractEngine.afterAll] at h ⊢
    have hstep : (e.after rd ev).2 = false := by
      cases hb : (e.after rd ev).2 with
      | false => rfl
      | true => simp [hb] at h
    have hrest : (ContractEngine.afterAll rd (e.after rd ev).1 rest).2 = 0 := by
      simp [hstep] at h
      exact h
    rw [ih _ hrest, after_keeps_params rd e ev hstep]

/-! ### The engine's contract -/

/-- C1: whenever `UpdateParams` returns an error, whatever the engine state and
whatever the contract reader answered, `Params()` after the call is what it was
before the call (indeed the whole engine is unchanged). -/
theorem UpdateParams_error_keeps_Params (rd : Reader) (e : ContractEngine) (out : UpdateOutcome)
    (h : e.UpdateParams rd = some out) (herr : out.err ≠ none) :
    out.engine.Params = e.Params ∧ out.engine = e := by
  rcases UpdateParams_engine_cases rd e out h with ⟨_, heq⟩ | ⟨hnone, _⟩
  · exact ⟨by rw [heq], heq⟩
  · exact absurd hnone herr

theorem UpdateParams_error_keeps_Params_witness :
    sampleEngine.UpdateParams failingReader =
        some ⟨sampleEngine, some (.callerError 1), [(sampleCaller, 11)]⟩ ∧
      sampleEngine.Params = some NewGovParamSet :=
  ⟨rfl, (UpdateParams_error_keeps_Params failingReader sampleEngine
    ⟨sampleEngine, some (.callerError 1), [(sampleCaller, 11)]⟩ rfl (by decide)).1⟩

/-- C2: with a chain attached whose head height is `h`, if `UpdateParams`
returns `nil` then the contract address at `h + 1` is resolved, the reader was
invoked exactly once, on that address and block number, and `Params()`
afterwards is exactly the parameter set of that invocation. Here `h + 1` is the
`uint64` sum the code computes, which is the number `h + 1` for every head below
the largest `uint64`. -/
theorem UpdateParams_ok_sets_Params (rd : Reader) (e : ContractEngine) (chain : blockChain)
    (out : UpdateOutcome) (hc : e.chain = some chain) (h : e.UpdateParams rd = some out)
    (hok : out.err = none) :
    ∃ addr, e.contractAddrAt (addUint64 chain.headUint64 1) = some addr ∧
      out.calls = [(⟨e.chainConfig, chain, addr⟩, addUint64 chain.headUint64 1)] ∧
      out.engine.Params =
        (rd ⟨e.chainConfig, chain, addr⟩ (addUint64 chain.headUint64 1)).1 ∧
      (chain.headUint64 + 1 < 2 ^ 64 →
        addUint64 chain.headUint64 1 = chain.headUint64 + 1) := by
  unfold ContractEngine.UpdateParams at h
  simp only [hc] at h
  rw [contractGetAllParamsAt_attached rd e chain _ hc] at h
  cases ha : e.contractAddrAt (addUint64 chain.headUint64 1) with
  | none => simp [ha] at h
  | some addr =>
    simp only [ha] at h
    refine ⟨addr, rfl, ?_⟩
    cases hempty : EmptyAddress addr with
    | true =>
      simp only [hempty, if_true, Option.isSome_some, Option.some.injEq] at h
      subst h
      simp at hok
    | false =>
      simp only [hempty, Bool.false_eq_true, if_false] at h
      cases herr : (rd ⟨e.chainConfig, chain, addr⟩ (addUint64 chain.headUint64 1)).2.isSome with
      | true =>
        simp only [herr, if_true, Option.some.injEq] at h
        subst h
        simp only at hok
        rw [hok] at herr
        simp at herr
      | false =>
        simp only [herr, Bool.false_eq_true, if_false, Option.some.injEq] at h
        subst h
        exact ⟨rfl, rfl, fun hlt => Nat.mod_eq_of_lt hlt⟩

theorem UpdateParams_ok_sets_Params_witness :
    sampleEngine.UpdateParams okReader =
        some ⟨{ sampleEngine with currentParams := some ⟨[(1, 11)]⟩ }, none,
          [(sampleCaller, 11)]⟩ ∧
      (some ⟨[(1, 11)]⟩ : Option GovParamSet) = (okReader sampleCaller 11).1 := by
  refine ⟨rfl, ?_⟩
  obtain ⟨addr, ha, _, hp, _⟩ := UpdateParams_ok_sets_Params okReader sampleEngine sampleChain
    ⟨{ sampleEngine with currentParams := some ⟨[(1, 11)]⟩ }, none, [(sampleCaller, 11)]⟩
    rfl rfl rfl
  have h7 : sampleEngine.contractAddrAt (addUint64 sampleChain.headUint64 1) = some 7 := rfl
  rw [h7] at ha
  cases ha
  exact hp

/-- C3: with a chain attached whose head height is `h`, `ParamsAt(H)` for any
requested height `H > h` returns what `ParamsAt(h + 1)` returns: the same result
pair (parameter set or error), from the same reader invocation. -/
theorem ParamsAt_beyond_head (rd : Reader) (e : ContractEngine) (chain : blockChain) (H : Nat)
    (hc : e.chain = some chain) (hgt : H > chain.headUint64) :
    e.ParamsAt rd H = e.ParamsAt rd (chain.headUint64 + 1) := by
  unfold ContractEngine.ParamsAt
  simp only [hc]
  have h1 : chain.headUint64 + 1 > chain.headUint64 := Nat.lt_succ_self _
  simp only [hgt, h1, if_true]

theorem ParamsAt_beyond_head_witness :
    sampleEngine.ParamsAt okReader 500 = sampleEngine.ParamsAt okReader (10 + 1) ∧
      sampleEngine.ParamsAt okReader 500 =
        some ((some ⟨[(1, 11)]⟩, none), [(sampleCaller, 11)]) :=
  ⟨ParamsAt_beyond_head okReader sampleEngine sampleChain 500 rfl (by decide), rfl⟩

/-- C4: on an engine with no chain attached, `ParamsAt(num)` returns, for every
`num`, no parameter set together with `errContractEngineNotReady`; it does not
panic and does not invoke the contract reader. -/
theorem ParamsAt_before_SetBlockchain (rd : Reader) (e : ContractEngine) (num : Nat)
    (h : e.chain = none) :
    e.ParamsAt rd num = some ((none, some .errContractEngineNotReady), []) := by
  simp [ContractEngine.ParamsAt, h]

theorem ParamsAt_before_SetBlockchain_witness :
    (NewContractEngine (some sampleConfig)).ParamsAt okReader 5 =
      some ((none, some .errContractEngineNotReady), []) :=
  ParamsAt_before_SetBlockchain okReader (NewContractEngine (some sampleConfig)) 5 rfl

/-- C5: with a chain attached and a chain configuration that has no `Governance`
section, or whose `GovParamContract` is the zero address, `ParamsAt(num)` returns
`errContractEngineNotReady` for every `num` and does not invoke the contract
reader. -/
theorem ParamsAt_without_contract_address (rd : Reader) (e : ContractEngine) (chain : blockChain)
    (config : ChainConfig) (num : Nat) (hc : e.chain = some chain)
    (hcfg : e.chainConfig = some config)
    (haddr : config.Governance = none ∨
      ∃ g, config.Governance = some g ∧ g.GovParamContract = 0) :
    e.ParamsAt rd num = some ((none, some .errContractEngineNotReady), []) := by
  have hzero : ∀ n, e.contractAddrAt n = some 0 := by
    intro n
    unfold ContractEngine.contractAddrAt
    rcases haddr with hnone | ⟨g, hg, hz⟩
    · simp [hcfg, hnone]
    · simp [hcfg, hg, hz]
  unfold ContractEngine.ParamsAt
  simp only [hc]
  rw [contractGetAllParamsAt_attached rd e chain _ hc, hzero]
  simp [EmptyAddress]

theorem ParamsAt_without_contract_address_witness :
    ((NewContractEngine (some bareConfig)).SetBlockchain (some sampleChain)).ParamsAt okReader 3 =
      some ((none, some .errContractEngineNotReady), []) :=
  ParamsAt_without_contract_address okReader
    ((NewContractEngine (some bareConfig)).SetBlockchain (some sampleChain))
    sampleChain bareConfig 3 rfl rfl (Or.inl rfl)

/-- C6: on an engine built by `NewContractEngine`, after any sequence of
`SetBlockchain`, `ParamsAt` and `UpdateParams` calls (and of moves of the attached
chain) in which no `UpdateParams` returned `nil`, `Params()` returns the empty
parameter set created at construction; and a `SetBlockchain` or a `ParamsAt` call
never changes what `Params()` returns, on any engine. -/
theorem Params_default_until_UpdateParams_succeeds (rd : Reader) (config : Option ChainConfig)
    (evs : List EngineEvent)
    (h : ((NewContractEngine config).afterAll rd evs).2 = 0) :
    ((NewContractEngine config).afterAll rd evs).1.Params = some NewGovParamSet ∧
      (∀ (e : ContractEngine) (chain : Option blockChain),
        (e.SetBlockchain chain).Params = e.Params) ∧
      (∀ (e : ContractEngine) (num : Nat),
        (e.after rd (.ParamsAt num)).1.Params = e.Params) := by
  refine ⟨?_, fun _ _ => rfl, fun _ _ => rfl⟩
  rw [afterAll_keeps_params rd evs _ h]
  rfl

theorem Params_default_until_UpdateParams_succeeds_witness :
    ((NewContractEngine (some sampleConfig)).afterAll failingReader
        [.UpdateParams, .SetBlockchain (some sampleChain), .ParamsAt 5, .UpdateParams,
          .chainMoved ⟨11, 1⟩, .ParamsAt 12, .UpdateParams]).1.Params = some NewGovParamSet :=
  (Params_default_until_UpdateParams_succeeds failingReader (some sampleConfig)
    [.UpdateParams, .SetBlockchain (some sampleChain), .ParamsAt 5, .UpdateParams,
      .chainMoved ⟨11, 1⟩, .ParamsAt 12, .UpdateParams] (by decide)).1

end governance

namespace reward

/-! ### Helper lemmas on the cache and on the two paths of `getStakingInfo` -/

theorem get_add_of_absent (sc : stakingInfoCache) (stakingInfo : StakingInfo)
    (h : sc.get stakingInfo.BlockNum = none) :
    (sc.add stakingInfo).get stakingInfo.BlockNum = some stakingInfo := by
  unfold stakingInfoCache.add
  rw [h]
  simp [stakingInfoCache.get]

theorem updateStakingCache_error (sm : stakingManager) (blockNum : Nat) (err : AddressBookError)
    (h : sm.abm.readAt blockNum = .error err) :
    sm.updateStakingCache blockNum = { value := .error err, sm := sm, fetches := [blockNum] } := by
  simp [stakingManager.updateStakingCache, addressBookManager.getStakingInfoFromAddressBook, h]

theorem updateStakingCache_ok (sm : stakingManager) (blockNum : Nat) (data : AddressBookData)
    (h : sm.abm.readAt blockNum = .ok data) :
    sm.updateStakingCache blockNum =
      { value := .ok ⟨blockNum, data.nodeAddrs, data.stakingAmounts⟩,
        sm := { sm with sic := sm.sic.add ⟨blockNum, data.nodeAddrs, data.stakingAmounts⟩ },
        fetches := [blockNum] } := by
  simp [stakingManager.updateStakingCache, addressBookManager.getStakingInfoFromAddressBook, h]

theorem getStakingInfo_hit (canon : Nat → Option Nat) (sm : stakingManager) (blockNum E : Nat)
    (cached : StakingInfo) (hc : canon blockNum = some E) (hget : sm.sic.get E = some cached) :
    sm.getStakingInfo canon blockNum = some { value := some cached, sm := sm, fetches := [] } := by
  simp [stakingManager.getStakingInfo, hc, hget]

theorem getStakingInfo_miss_error (canon : Nat → Option Nat) (sm : stakingManager)
    (blockNum E : Nat) (err : AddressBookError) (hc : canon blockNum = some E)
    (hget : sm.sic.get E = none) (hread : sm.abm.readAt E = .error err) :
    sm.getStakingInfo canon blockNum = some { value := none, sm := sm, fetches := [E] } := by
  simp [stakingManager.getStakingInfo, hc, hget, updateStakingCache_error sm E err hread]

theorem getStakingInfo_miss_ok (canon : Nat → Option Nat) (sm : stakingManager)
    (blockNum E : Nat) (data : AddressBookData) (hc : canon blockNum = some E)
    (hget : sm.sic.get E = none) (hread : sm.abm.readAt E = .ok data) :
    sm.getStakingInfo canon blockNum =
      some { value := some ⟨E, data.nodeAddrs, data.stakingAmounts⟩,
             sm := { sm with sic := sm.sic.add ⟨E, data.nodeAddrs, data.stakingAmounts⟩ },
             fetches := [E] } := by
  simp [stakingManager.getStakingInfo, hc, hget, updateStakingCache_ok sm E data hread]

/-! ### The manager's contract -/

/-- C7, as stated, fails: with an empty cache, heights 101 and 150 both
canonicalize to epoch 100; the first `getStakingInfo` finds the address book
failing and returns `nil`, leaving the cache empty; the second one, the address
book now answering, fetches and returns a staking info, which is neither a cache
hit nor the first call's result. -/
theorem getStakingInfo_twice_counterexample :
    sampleCalc 101 = some 100 ∧ sampleCalc 150 = some 100 ∧
      (coldManager.getStakingInfo sampleCalc 101).map
          (fun r => (r.value, r.sm.sic, r.fetches)) = some (none, coldManager.sic, [100]) ∧
      (({ coldManager with abm := okAbm } : stakingManager).getStakingInfo sampleCalc 150).map
          (fun r => (r.value, r.fetches)) = some (some sampleInfo, [100]) ∧
      (some sampleInfo : Option StakingInfo) ≠ none :=
  ⟨rfl, rfl, rfl, rfl, by decide⟩

/-- C7 (amended): for heights `h1`, `h2` that both canonicalize to epoch `E`, a
`getStakingInfo(h2)` that follows a `getStakingInfo(h1)` returns, performs at
most one address-book fetch, and (a) if the first call returned a staking info,
it is a cache hit: no fetch, the cache untouched, the same value returned;
(b) if the address book answers the read of `E` as it did for the first call,
it returns a value equal to the first call's result. -/
theorem getStakingInfo_second_call (canon : Nat → Option Nat) (sm : stakingManager)
    (abm2 : addressBookManager) (h1 h2 E : Nat) (r1 : Outcome (Option StakingInfo))
    (hc1 : canon h1 = some E) (hc2 : canon h2 = some E)
    (hr1 : sm.getStakingInfo canon h1 = some r1) :
    ∃ r2, ({ r1.sm with abm := abm2 } : stakingManager).getStakingInfo canon h2 = some r2 ∧
      r2.fetches.length ≤ 1 ∧
      (∀ stakingInfo, r1.value = some stakingInfo →
        r2.value = some stakingInfo ∧ r2.fetches = [] ∧ r2.sm.sic = r1.sm.sic) ∧
      (abm2.readAt E = sm.abm.readAt E → r2.value = r1.value) := by
  cases hget : sm.sic.get E with
  | some cached =>
    rw [getStakingInfo_hit canon sm h1 E cached hc1 hget] at hr1
    cases hr1
    refine ⟨_, getStakingInfo_hit canon _ h2 E cached hc2 hget, by simp, ?_, fun _ => rfl⟩
    intro stakingInfo hv
    exact ⟨hv, rfl, rfl⟩
  | none =>
    cases hread : sm.abm.readAt E with
    | error err =>
      rw [getStakingInfo_miss_error canon sm h1 E err hc1 hget hread] at hr1
      cases hr1
      cases hread2 : abm2.readAt E with
      | error err2 =>
        refine ⟨_, getStakingInfo_miss_error canon _ h2 E err2 hc2 hget hread2, by simp, ?_,
          fun _ => rfl⟩
        intro stakingInfo hv
        cases hv
      | ok data2 =>
        refine ⟨_, getStakingInfo_miss_ok canon _ h2 E data2 hc2 hget hread2, by simp, ?_, ?_⟩
        · intro stakingInfo hv
          cases hv
        · intro heq
          cases heq
    | ok data =>
      rw [getStakingInfo_miss_ok canon sm h1 E data hc1 hget hread] at hr1
      cases hr1
      have hhit := get_add_of_absent sm.sic ⟨E, data.nodeAddrs, data.stakingAmounts⟩ hget
      refine ⟨_, getStakingInfo_hit canon _ h2 E _ hc2 hhit, by simp, ?_, fun _ => rfl⟩
      intro stakingInfo hv
      exact ⟨hv, rfl, rfl⟩

theorem getStakingInfo_second_call_witness :
    ∃ r2, ({ freshManager with sic := freshManager.sic.add sampleInfo, abm := failingAbm } :
        stakingManager).getStakingInfo sampleCalc 150 = some r2 ∧
      r2.fetches.length ≤ 1 ∧
      (∀ stakingInfo, some sampleInfo = some stakingInfo →
        r2.value = some stakingInfo ∧ r2.fetches = [] ∧
          r2.sm.sic = freshManager.sic.add sampleInfo) ∧
      (failingAbm.readAt 100 = freshManager.abm.readAt 100 → r2.value = some sampleInfo) :=
  getStakingInfo_second_call sampleCalc freshManager failingAbm 101 150 100
    ⟨some sampleInfo, { freshManager with sic := freshManager.sic.add sampleInfo }, [100]⟩
    rfl rfl rfl

/-- C8: when the epoch `E` of the requested height is not in the cache and the
address-book fetch fails, `getStakingInfo` returns `nil` after that one fetch and
leaves the manager, hence the cache, exactly as it was; so a later
`getStakingInfo` for a height of the same epoch, the fetch now succeeding,
returns the fetched staking info and leaves it in the cache under `E`. -/
theorem getStakingInfo_failure_keeps_cache (canon : Nat → Option Nat) (sm : stakingManager)
    (blockNum E : Nat) (err : AddressBookError) (hc : canon blockNum = some E)
    (hget : sm.sic.get E = none) (hread : sm.abm.readAt E = .error err) :
    sm.getStakingInfo canon blockNum = some { value := none, sm := sm, fetches := [E] } ∧
      ∀ (abm2 : addressBookManager) (later : Nat) (data : AddressBookData),
        canon later = some E → abm2.readAt E = .ok data →
        ({ sm with abm := abm2 } : stakingManager).getStakingInfo canon later =
            some { value := some ⟨E, data.nodeAddrs, data.stakingAmounts⟩,
                   sm := { sm with abm := abm2,
                                   sic := sm.sic.add ⟨E, data.nodeAddrs, data.stakingAmounts⟩ },
                   fetches := [E] } ∧
          (sm.sic.add ⟨E, data.nodeAddrs, data.stakingAmounts⟩).get E =
            some ⟨E, data.nodeAddrs, data.stakingAmounts⟩ := by
  refine ⟨getStakingInfo_miss_error canon sm blockNum E err hc hget hread, ?_⟩
  intro abm2 later data hlater hread2
  exact ⟨getStakingInfo_miss_ok canon _ later E data hlater hget hread2,
    get_add_of_absent sm.sic ⟨E, data.nodeAddrs, data.stakingAmounts⟩ hget⟩

theorem getStakingInfo_failure_keeps_cache_witness :
    (coldManager.getStakingInfo sampleCalc 101).map
        (fun r => (r.value, r.sm.sic, r.fetches)) = some (none, newStakingInfoCache, [100]) ∧
      (({ coldManager with abm := okAbm } : stakingManager).getStakingInfo sampleCalc 199).map
        (fun r => (r.value, r.sm.sic.get 100, r.fetches)) =
          some (some sampleInfo, some sampleInfo, [100]) := by
  have h := getStakingInfo_failure_keeps_cache sampleCalc coldManager 101 100 1 rfl rfl rfl
  constructor
  · rw [h.1]
    rfl
  · rw [(h.2 okAbm 199 ⟨[21, 22], [5, 7]⟩ rfl rfl).1]
    rfl

/-- C9: a head event handled while the governance helper reports a policy other
than `WeightedRandom` performs no address-book fetch and leaves the manager, hence
the cache, as it was; and after any sequence of such events the loop has
performed no fetch and the cache is the one it started with. -/
theorem handleChainHeadEvent_other_policy (sm : stakingManager) (ds : List Delivery)
    (h : ∀ d ∈ ds, d.gh.ProposerPolicy ≠ .WeightedRandom) :
    (∀ (m : stakingManager) (ev : ChainHeadEvent), m.gh.ProposerPolicy ≠ .WeightedRandom →
        m.handleEvent ev = some { value := (), sm := m, fetches := [] }) ∧
      ∃ r, sm.handleChainHeadEvent ds = some r ∧ r.sm.sic = sm.sic ∧ r.fetches = [] := by
  have hone : ∀ (m : stakingManager) (ev : ChainHeadEvent),
      m.gh.ProposerPolicy ≠ .WeightedRandom →
      m.handleEvent ev = some { value := (), sm := m, fetches := [] } := by
    intro m ev hp
    simp [stakingManager.handleEvent, hp]
  refine ⟨hone, ?_⟩
  induction ds generalizing sm with
  | nil => exact ⟨_, rfl, rfl, rfl⟩
  | cons d rest ih =>
    have hd : d.gh.ProposerPolicy ≠ .WeightedRandom := h d (List.mem_cons_self _ _)
    obtain ⟨r, hr, hsic, hf⟩ :=
      ih ({ sm with gh := d.gh, abm := d.abm } : stakingManager)
        (fun x hx => h x (List.mem_cons_of_mem _ hx))
    refine ⟨{ value := (), sm := r.sm, fetches := [] ++ r.fetches }, ?_, hsic, by simp [hf]⟩
    unfold stakingManager.handleChainHeadEvent
    rw [hone _ d.ev hd]
    simp only [hr]

theorem handleChainHeadEvent_other_policy_witness :
    ∃ r, freshManager.handleChainHeadEvent
        [⟨⟨101⟩, otherGh, okAbm⟩, ⟨⟨200⟩, otherGh, okAbm⟩] = some r ∧
      r.sm.sic = freshManager.sic ∧ r.fetches = [] :=
  (handleChainHeadEvent_other_policy freshManager
    [⟨⟨101⟩, otherGh, okAbm⟩, ⟨⟨200⟩, otherGh, okAbm⟩] (by
      intro d hd
      simp only [List.mem_cons, List.mem_singleton, List.not_mem_nil, or_false] at hd
      rcases hd with rfl | rfl <;> simp [otherGh])).2

/-- C10, as stated, fails at interval 0: the remainder by zero panics, so the
background refresh computes no epoch height for head 5. -/
theorem stakingBlockNum_interval_zero_counterexample :
    stakingBlockNum 5 0 = none ∧ stakingBlockNum 5 0 ≠ some (5 - 5 % 0) :=
  ⟨rfl, by decide⟩

/-- C10 (amended): for every interval `I > 0` and every `uint64` height `H`, the
epoch height the background refresh computes is `H - (H mod I)`, and computing it
again from that result with the same `I` returns the result unchanged. -/
theorem stakingBlockNum_eq (I H : Nat) (hI : 0 < I) (hH : H < 2 ^ 64) :
    stakingBlockNum H I = some (H - H % I) ∧
      stakingBlockNum (H - H % I) I = some (H - H % I) := by
  have hne : I ≠ 0 := Nat.pos_iff_ne_zero.mp hI
  have hle : H % I ≤ H := Nat.mod_le H I
  have hsub : ∀ a b : Nat, b ≤ a → a < 2 ^ 64 → subUint64 a b = a - b := by
    intro a b hb ha
    unfold subUint64
    have hb2 : b % 2 ^ 64 = b := Nat.mod_eq_of_lt (lt_of_le_of_lt hb ha)
    rw [hb2]
    have : a + 2 ^ 64 - b = (a - b) + 2 ^ 64 := by omega
    rw [this, Nat.add_mod_right]
    exact Nat.mod_eq_of_lt (lt_of_le_of_lt (Nat.sub_le a b) ha)
  have hzero : (H - H % I) % I = 0 :=
    Nat.sub_mod_eq_zero_of_mod_eq (Nat.mod_mod H I).symm
  constructor
  · simp only [stakingBlockNum, hne, if_false]
    rw [hsub H (H % I) hle hH]
  · simp only [stakingBlockNum, hne, if_false]
    rw [hzero, hsub (H - H % I) 0 (Nat.zero_le _) (lt_of_le_of_lt (Nat.sub_le _ _) hH)]
    rfl

theorem stakingBlockNum_eq_witness :
    stakingBlockNum 199 100 = some 100 ∧ stakingBlockNum 100 100 = some 100 :=
  stakingBlockNum_eq 100 199 (by decide) (by decide)

/-! ### Helper lemmas on cache keys and on sequences of calls -/

theorem get_eq_none_iff (sc : stakingInfoCache) (k : Nat) :
    sc.get k = none ↔ k ∉ sc.keys := by
  unfold stakingInfoCache.get stakingInfoCache.keys
  cases hf : sc.cells.find? (fun cell => cell.1 == k) with
  | none =>
    simp only [true_iff]
    intro hmem
    rw [List.mem_map] at hmem
    obtain ⟨cell, hcell, hk⟩ := hmem
    have := List.find?_eq_none.mp hf cell hcell
    simp [hk] at this
  | some cell =>
    have hp := List.find?_some hf
    have hm := List.mem_of_find?_eq_some hf
    simp only [beq_iff_eq] at hp
    have hk : k ∈ sc.cells.map (fun cell => cell.1) := List.mem_map.mpr ⟨cell, hm, hp⟩
    constructor
    · intro h
      cases h
    · intro h
      exact absurd hk h

theorem keys_add_of_absent (sc : stakingInfoCache) (stakingInfo : StakingInfo)
    (h : sc.get stakingInfo.BlockNum = none) :
    (sc.add stakingInfo).keys = stakingInfo.BlockNum :: sc.keys := by
  unfold stakingInfoCache.add
  rw [h]
  rfl

theorem add_of_present (sc : stakingInfoCache) (stakingInfo cached : StakingInfo)
    (h : sc.get stakingInfo.BlockNum = some cached) (hfirst : sc.lastWrite = false) :
    sc.add stakingInfo = sc := by
  unfold stakingInfoCache.add
  rw [h]
  simp [hfirst]

theorem add_lastWrite (sc : stakingInfoCache) (stakingInfo : StakingInfo) :
    (sc.add stakingInfo).lastWrite = sc.lastWrite := by
  unfold stakingInfoCache.add
  cases sc.get stakingInfo.BlockNum with
  | none => rfl
  | some cached =>
    cases hl : sc.lastWrite with
    | false => simp [hl]
    | true => simp

theorem keys_add_of_present (sc : stakingInfoCache) (stakingInfo cached : StakingInfo)
    (h : sc.get stakingInfo.BlockNum = some cached) : (sc.add stakingInfo).keys = sc.keys := by
  unfold stakingInfoCache.add
  rw [h]
  cases hl : sc.lastWrite with
  | false => simp
  | true =>
    simp only [if_true, stakingInfoCache.keys, List.map_map]
    apply List.map_congr_left
    intro cell _
    by_cases hc : cell.1 = stakingInfo.BlockNum
    · simp [hc]
    · simp [hc]

theorem find_replace_of_ne (cells : List (Nat × StakingInfo)) (stakingInfo : StakingInfo)
    (k : Nat) (hne : stakingInfo.BlockNum ≠ k) :
    (cells.map (fun cell =>
        if cell.1 == stakingInfo.BlockNum then (stakingInfo.BlockNum, stakingInfo)
        else cell)).find? (fun cell => cell.1 == k) =
      cells.find? (fun cell => cell.1 == k) := by
  induction cells with
  | nil => rfl
  | cons c rest ih =>
    by_cases hc : c.1 = stakingInfo.BlockNum
    · have hck : c.1 ≠ k := fun h => hne (hc ▸ h)
      simp only [List.map_cons, hc, beq_self_eq_true, if_true]
      rw [List.find?_cons_of_neg _ (by simpa using hne),
        List.find?_cons_of_neg _ (by simpa using hck)]
      exact ih
    · simp only [List.map_cons, beq_iff_eq, hc, if_false]
      by_cases hk : c.1 = k
      · rw [List.find?_cons_of_pos _ (by simpa using hk),
          List.find?_cons_of_pos _ (by simpa using hk)]
      · rw [List.find?_cons_of_neg _ (by simpa using hk),
          List.find?_cons_of_neg _ (by simpa using hk)]
        simpa using ih

theorem get_add_of_ne (sc : stakingInfoCache) (stakingInfo : StakingInfo) (k : Nat)
    (hne : stakingInfo.BlockNum ≠ k) : (sc.add stakingInfo).get k = sc.get k := by
  unfold stakingInfoCache.add
  cases hget : sc.get stakingInfo.BlockNum with
  | none =>
    unfold stakingInfoCache.get
    simp only
    rw [List.find?_cons_of_neg _ (by simpa using hne)]
  | some cached =>
    cases hl : sc.lastWrite with
    | false => simp
    | true =>
      simp only [if_true]
      unfold stakingInfoCache.get
      simp only
      rw [find_replace_of_ne sc.cells stakingInfo k hne]

theorem get_add_of_present (sc : stakingInfoCache) (stakingInfo : StakingInfo) (k : Nat)
    (v : StakingInfo) (h : sc.get k = some v)
    (hkeep : sc.lastWrite = false ∨ stakingInfo.BlockNum ≠ k) :
    (sc.add stakingInfo).get k = some v := by
  by_cases hne : stakingInfo.BlockNum = k
  · rcases hkeep with hfirst | hk
    · rw [add_of_present sc stakingInfo v (hne ▸ h) hfirst, h]
    · exact absurd hne hk
  · rw [get_add_of_ne sc stakingInfo k hne, h]

theorem stakingBlockNum_of_pos (I H : Nat) (hI : 0 < I) (hH : H < 2 ^ 64) :
    stakingBlockNum H I = some (H - H % I) := by
  have hne : I ≠ 0 := Nat.pos_iff_ne_zero.mp hI
  have hle : H % I ≤ H := Nat.mod_le H I
  have hlt : H % I < 2 ^ 64 := lt_of_le_of_lt hle hH
  simp only [stakingBlockNum, hne, if_false, subUint64, Nat.mod_eq_of_lt hlt]
  have hsplit : H + 2 ^ 64 - H % I = (H - H % I) + 2 ^ 64 := by omega
  rw [hsplit, Nat.add_mod_right, Nat.mod_eq_of_lt (lt_of_le_of_lt (Nat.sub_le _ _) hH)]

theorem NumberU64_lt (ev : ChainHeadEvent) : ev.NumberU64 < 2 ^ 64 :=
  Nat.mod_lt _ (by decide)

theorem handleEvent_weighted_miss (sm : stakingManager) (ev : ChainHeadEvent) (n : Nat)
    (data : AddressBookData) (hp : sm.gh.ProposerPolicy = .WeightedRandom)
    (hn : stakingBlockNum ev.NumberU64 sm.gh.StakingUpdateInterval = some n)
    (hget : sm.sic.get n = none) (hread : sm.abm.readAt n = .ok data) :
    sm.handleEvent ev =
      some { value := (),
             sm := { sm with sic := sm.sic.add ⟨n, data.nodeAddrs, data.stakingAmounts⟩ },
             fetches := [n] } := by
  simp [stakingManager.handleEvent, hp, hn, hget, updateStakingCache_ok sm n data hread]

theorem handleEvent_weighted_hit (sm : stakingManager) (ev : ChainHeadEvent) (n : Nat)
    (cached : StakingInfo) (hp : sm.gh.ProposerPolicy = .WeightedRandom)
    (hn : stakingBlockNum ev.NumberU64 sm.gh.StakingUpdateInterval = some n)
    (hget : sm.sic.get n = some cached) :
    sm.handleEvent ev = some { value := (), sm := sm, fetches := [] } := by
  simp [stakingManager.handleEvent, hp, hn, hget]

theorem handleChainHeadEvent_weighted_inv (I : Nat) (hI : 0 < I) (ds : List Delivery)
    (hds : ∀ d ∈ ds, d.gh.ProposerPolicy = .WeightedRandom ∧ d.gh.StakingUpdateInterval = I ∧
      ∀ n, ∃ data, d.abm.readAt n = .ok data) :
    ∀ sm : stakingManager, ∃ r, sm.handleChainHeadEvent ds = some r ∧
      r.sm.sic.keys = r.fetches.reverse ++ sm.sic.keys ∧
      (∀ k, k ∈ r.fetches → k ∉ sm.sic.keys) ∧
      r.fetches.Nodup ∧
      (∀ k, k ∈ r.sm.sic.keys ↔
        k ∈ sm.sic.keys ∨ ∃ d ∈ ds, k = d.ev.NumberU64 - d.ev.NumberU64 % I) := by
  induction ds with
  | nil =>
    intro sm
    refine ⟨_, rfl, by simp, by simp, by simp, by simp⟩
  | cons d rest ih =>
    intro sm
    obtain ⟨hp, hint, hok⟩ := hds d (List.mem_cons_self _ _)
    have hrest := ih (fun x hx => hds x (List.mem_cons_of_mem _ hx))
    have hn : stakingBlockNum d.ev.NumberU64
        ({ sm with gh := d.gh, abm := d.abm } : stakingManager).gh.StakingUpdateInterval =
        some (d.ev.NumberU64 - d.ev.NumberU64 % I) := by
      show stakingBlockNum d.ev.NumberU64 d.gh.StakingUpdateInterval = _
      rw [hint]
      exact stakingBlockNum_of_pos I _ hI (NumberU64_lt d.ev)
    unfold stakingManager.handleChainHeadEvent
    cases hget : sm.sic.get (d.ev.NumberU64 - d.ev.NumberU64 % I) with
    | some cached =>
      rw [handleEvent_weighted_hit _ d.ev _ cached hp hn hget]
      obtain ⟨r2, hr2, hkeys, hfresh, hnodup, hmem⟩ :=
        hrest ({ sm with gh := d.gh, abm := d.abm } : stakingManager)
      simp only [hr2]
      have hin : d.ev.NumberU64 - d.ev.NumberU64 % I ∈ sm.sic.keys := by
        by_contra hnot
        rw [(get_eq_none_iff sm.sic _).mpr hnot] at hget
        cases hget
      refine ⟨_, rfl, by simpa using hkeys, by simpa using hfresh, by simpa using hnodup, ?_⟩
      intro k
      rw [hmem k]
      constructor
      · rintro (h | ⟨x, hx, hk⟩)
        · exact Or.inl h
        · exact Or.inr ⟨x, List.mem_cons_of_mem _ hx, hk⟩
      · rintro (h | ⟨x, hx, hk⟩)
        · exact Or.inl h
        · rcases List.mem_cons.mp hx with rfl | hx2
          · exact Or.inl (hk ▸ hin)
          · exact Or.inr ⟨x, hx2, hk⟩
    | none =>
      obtain ⟨data, hread⟩ := hok (d.ev.NumberU64 - d.ev.NumberU64 % I)
      rw [handleEvent_weighted_miss _ d.ev _ data hp hn hget hread]
      obtain ⟨r2, hr2, hkeys, hfresh, hnodup, hmem⟩ :=
        hrest ({ sm with gh := d.gh, abm := d.abm,
                         sic := sm.sic.add ⟨d.ev.NumberU64 - d.ev.NumberU64 % I,
                           data.nodeAddrs, data.stakingAmounts⟩ } : stakingManager)
      simp only [hr2]
      have hk1 := keys_add_of_absent sm.sic
        ⟨d.ev.NumberU64 - d.ev.NumberU64 % I, data.nodeAddrs, data.stakingAmounts⟩ hget
      simp only at hk1 hkeys hfresh hmem
      rw [hk1] at hkeys hfresh hmem
      have hnot : d.ev.NumberU64 - d.ev.NumberU64 % I ∉ sm.sic.keys :=
        (get_eq_none_iff sm.sic _).mp hget
      refine ⟨_, rfl, ?_, ?_, ?_, ?_⟩
      · simp [hkeys]
      · intro k hk
        rcases List.mem_append.mp hk with h1 | h2
        · rw [List.mem_singleton.mp h1]
          exact hnot
        · exact fun hin => hfresh k h2 (List.mem_cons_of_mem _ hin)
      · refine List.nodup_append.mpr ⟨List.nodup_singleton _, hnodup, ?_⟩
        intro a ha1 ha2
        rw [List.mem_singleton.mp ha1] at ha2
        exact hfresh _ ha2 (List.mem_cons_self _ _)
      · intro k
        rw [hmem k]
        constructor
        · rintro (h | ⟨x, hx, hk⟩)
          · rcases List.mem_cons.mp h with rfl | h2
            · exact Or.inr ⟨d, List.mem_cons_self _ _, rfl⟩
            · exact Or.inl h2
          · exact Or.inr ⟨x, List.mem_cons_of_mem _ hx, hk⟩
        · rintro (h | ⟨x, hx, hk⟩)
          · exact Or.inl (List.mem_cons_of_mem _ h)
          · rcases List.mem_cons.mp hx with rfl | hx2
            · exact Or.inl (hk ▸ List.mem_cons_self _ _)
            · exact Or.inr ⟨x, hx2, hk⟩

theorem mem_keys_add (sc : stakingInfoCache) (stakingInfo : StakingInfo) (k : Nat)
    (h : k ∈ (sc.add stakingInfo).keys) : k = stakingInfo.BlockNum ∨ k ∈ sc.keys := by
  cases hget : sc.get stakingInfo.BlockNum with
  | some cached =>
    rw [keys_add_of_present sc stakingInfo cached hget] at h
    exact Or.inr h
  | none =>
    rw [keys_add_of_absent sc stakingInfo hget] at h
    exact List.mem_cons.mp h

theorem sub_mod_canonical (I H : Nat) : H - H % I = (H - H % I) - (H - H % I) % I := by
  have hzero : (H - H % I) % I = 0 := Nat.sub_mod_eq_zero_of_mod_eq (Nat.mod_mod H I).symm
  rw [hzero, Nat.sub_zero]

theorem afterStep_sic (canon : Nat → Option Nat) (sm : stakingManager) (step : ManagerStep) :
    (sm.afterStep canon step).sic = sm.sic ∨
      ∃ stakingInfo : StakingInfo, (sm.afterStep canon step).sic = sm.sic.add stakingInfo ∧
        match step.call with
        | .getStakingInfo blockNum => canon blockNum = some stakingInfo.BlockNum
        | .updateStakingCache blockNum => stakingInfo.BlockNum = blockNum
        | .headEvent ev =>
          stakingBlockNum ev.NumberU64 step.gh.StakingUpdateInterval =
            some stakingInfo.BlockNum := by
  obtain ⟨abm, gh, call⟩ := step
  cases call with
  | getStakingInfo blockNum =>
    simp only [stakingManager.afterStep]
    cases hc : canon blockNum with
    | none =>
      left
      simp [stakingManager.getStakingInfo, hc]
    | some E =>
      cases hget : sm.sic.get E with
      | some cached =>
        left
        rw [getStakingInfo_hit canon (⟨abm, sm.sic, gh⟩ : stakingManager) blockNum E cached hc hget]
      | none =>
        cases hread : abm.readAt E with
        | error err =>
          left
          rw [getStakingInfo_miss_error canon (⟨abm, sm.sic, gh⟩ : stakingManager) blockNum E err hc hget hread]
        | ok data =>
          right
          rw [getStakingInfo_miss_ok canon (⟨abm, sm.sic, gh⟩ : stakingManager) blockNum E data hc hget hread]
          exact ⟨⟨E, data.nodeAddrs, data.stakingAmounts⟩, rfl, rfl⟩
  | updateStakingCache blockNum =>
    simp only [stakingManager.afterStep]
    cases hread : abm.readAt blockNum with
    | error err =>
      left
      rw [updateStakingCache_error (⟨abm, sm.sic, gh⟩ : stakingManager) blockNum err hread]
    | ok data =>
      right
      rw [updateStakingCache_ok (⟨abm, sm.sic, gh⟩ : stakingManager) blockNum data hread]
      exact ⟨⟨blockNum, data.nodeAddrs, data.stakingAmounts⟩, rfl, rfl⟩
  | headEvent ev =>
    simp only [stakingManager.afterStep]
    by_cases hp : gh.ProposerPolicy = .WeightedRandom
    · cases hn : stakingBlockNum ev.NumberU64 gh.StakingUpdateInterval with
      | none =>
        left
        simp [stakingManager.handleEvent, hp, hn]
      | some n =>
        cases hget : sm.sic.get n with
        | some cached =>
          left
          rw [handleEvent_weighted_hit (⟨abm, sm.sic, gh⟩ : stakingManager) ev n cached hp hn hget]
        | none =>
          cases hread : abm.readAt n with
          | error err =>
            left
            simp [stakingManager.handleEvent, hp, hn, hget,
              updateStakingCache_error (⟨abm, sm.sic, gh⟩ : stakingManager) n err hread]
          | ok data =>
            right
            rw [handleEvent_weighted_miss (⟨abm, sm.sic, gh⟩ : stakingManager) ev n data hp hn hget hread]
            exact ⟨⟨n, data.nodeAddrs, data.stakingAmounts⟩, rfl, rfl⟩
    · left
      simp [stakingManager.handleEvent, hp]

theorem afterStep_sic_absent (canon : Nat → Option Nat) (sm : stakingManager)
    (step : ManagerStep) :
    (sm.afterStep canon step).sic = sm.sic ∨
      ∃ stakingInfo : StakingInfo, (sm.afterStep canon step).sic = sm.sic.add stakingInfo ∧
        (sm.sic.get stakingInfo.BlockNum = none ∨
          step.call = .updateStakingCache stakingInfo.BlockNum) := by
  obtain ⟨abm, gh, call⟩ := step
  cases call with
  | getStakingInfo blockNum =>
    simp only [stakingManager.afterStep]
    cases hc : canon blockNum with
    | none =>
      left
      simp [stakingManager.getStakingInfo, hc]
    | some E =>
      cases hget : sm.sic.get E with
      | some cached =>
        left
        rw [getStakingInfo_hit canon (⟨abm, sm.sic, gh⟩ : stakingManager) blockNum E cached hc hget]
      | none =>
        cases hread : abm.readAt E with
        | error err =>
          left
          rw [getStakingInfo_miss_error canon (⟨abm, sm.sic, gh⟩ : stakingManager) blockNum E err hc hget hread]
        | ok data =>
          right
          rw [getStakingInfo_miss_ok canon (⟨abm, sm.sic, gh⟩ : stakingManager) blockNum E data hc hget hread]
          exact ⟨⟨E, data.nodeAddrs, data.stakingAmounts⟩, rfl, Or.inl hget⟩
  | updateStakingCache blockNum =>
    simp only [stakingManager.afterStep]
    cases hread : abm.readAt blockNum with
    | error err =>
      left
      rw [updateStakingCache_error (⟨abm, sm.sic, gh⟩ : stakingManager) blockNum err hread]
    | ok data =>
      right
      rw [updateStakingCache_ok (⟨abm, sm.sic, gh⟩ : stakingManager) blockNum data hread]
      exact ⟨⟨blockNum, data.nodeAddrs, data.stakingAmounts⟩, rfl, Or.inr rfl⟩
  | headEvent ev =>
    simp only [stakingManager.afterStep]
    by_cases hp : gh.ProposerPolicy = .WeightedRandom
    · cases hn : stakingBlockNum ev.NumberU64 gh.StakingUpdateInterval with
      | none =>
        left
        simp [stakingManager.handleEvent, hp, hn]
      | some n =>
        cases hget : sm.sic.get n with
        | some cached =>
          left
          rw [handleEvent_weighted_hit (⟨abm, sm.sic, gh⟩ : stakingManager) ev n cached hp hn hget]
        | none =>
          cases hread : abm.readAt n with
          | error err =>
            left
            simp [stakingManager.handleEvent, hp, hn, hget,
              updateStakingCache_error (⟨abm, sm.sic, gh⟩ : stakingManager) n err hread]
          | ok data =>
            right
            rw [handleEvent_weighted_miss (⟨abm, sm.sic, gh⟩ : stakingManager) ev n data hp hn hget hread]
            exact ⟨⟨n, data.nodeAddrs, data.stakingAmounts⟩, rfl, Or.inl hget⟩
    · left
      simp [stakingManager.handleEvent, hp]

theorem afterStep_lastWrite (canon : Nat → Option Nat) (sm : stakingManager)
    (step : ManagerStep) : (sm.afterStep canon step).sic.lastWrite = sm.sic.lastWrite := by
  rcases afterStep_sic_absent canon sm step with hsame | ⟨stakingInfo, hadd, _⟩
  · rw [hsame]
  · rw [hadd, add_lastWrite]

/-! ### The cache under sequences of calls -/

/-- C11, as stated, fails at interval 0: under the weight-based policy the
handling of the first head event takes a remainder by zero and panics, so the
loop leaves no cache to speak of. -/
theorem handleChainHeadEvent_interval_zero_counterexample :
    (freshManager.handleChainHeadEvent [⟨⟨101⟩, ⟨.WeightedRandom, 0⟩, okAbm⟩]).isNone = true ∧
      stakingBlockNum 101 0 = none :=
  ⟨rfl, rfl⟩

/-- C11 (amended): starting from an empty cache, under the `WeightedRandom`
policy with an interval `I > 0` and an address book whose reads always succeed,
`handleChainHeadEvent` processes any finite sequence of head events and returns;
the cache keys are then exactly the values `H - (H mod I)` of the event heights
`H`, each key once, and the fetches performed are exactly these keys, one fetch
per key, in the order the keys entered the cache. For `I = 100` and the heights
101, 150, 199, 200 the keys are 100 and 200. -/
theorem handleChainHeadEvent_weighted_keys (I : Nat) (hI : 0 < I) (sm : stakingManager)
    (hempty : sm.sic = newStakingInfoCache) (ds : List Delivery)
    (hds : ∀ d ∈ ds, d.gh.ProposerPolicy = .WeightedRandom ∧ d.gh.StakingUpdateInterval = I ∧
      ∀ n, ∃ data, d.abm.readAt n = .ok data) :
    (∃ r, sm.handleChainHeadEvent ds = some r ∧
      (∀ k, k ∈ r.sm.sic.keys ↔ ∃ d ∈ ds, k = d.ev.NumberU64 - d.ev.NumberU64 % I) ∧
      r.sm.sic.keys.Nodup ∧
      r.fetches = r.sm.sic.keys.reverse) ∧
    (freshManager.handleChainHeadEvent sampleDeliveries).map
      (fun r => (r.sm.sic.keys, r.fetches)) = some ([200, 100], [100, 200]) := by
  refine ⟨?_, rfl⟩
  obtain ⟨r, hr, hkeys, _, hnodup, hmem⟩ := handleChainHeadEvent_weighted_inv I hI ds hds sm
  have hnil : sm.sic.keys = [] := by rw [hempty]; rfl
  rw [hnil, List.append_nil] at hkeys
  refine ⟨r, hr, ?_, ?_, ?_⟩
  · intro k
    rw [hmem k, hnil]
    simp
  · rw [hkeys]
    exact List.nodup_reverse.mpr hnodup
  · rw [hkeys, List.reverse_reverse]

theorem handleChainHeadEvent_weighted_keys_witness :
    ∃ r, freshManager.handleChainHeadEvent sampleDeliveries = some r ∧
      (∀ k, k ∈ r.sm.sic.keys ↔
        ∃ d ∈ sampleDeliveries, k = d.ev.NumberU64 - d.ev.NumberU64 % 100) ∧
      r.sm.sic.keys.Nodup ∧
      r.fetches = r.sm.sic.keys.reverse :=
  (handleChainHeadEvent_weighted_keys 100 (by decide) freshManager rfl sampleDeliveries (by
    intro d hd
    simp only [sampleDeliveries, List.mem_cons, List.mem_singleton, List.not_mem_nil,
      or_false] at hd
    rcases hd with rfl | rfl | rfl | rfl <;>
      exact ⟨rfl, rfl, fun _ => ⟨_, rfl⟩⟩)).1

/-- C12, as stated, fails on a cache whose insert is last-write, as the re-insert
of `updateStakingCache` is described: with the staking info of epoch 100 in the
cache, a direct `updateStakingCache(100)` fetches again and stores what the
address book now answers, so the value under key 100 changes. -/
theorem updateStakingCache_overwrites_counterexample :
    ({ freshManager with sic := freshManager.sic.add sampleInfo } : stakingManager).sic.get 100 =
        some sampleInfo ∧
      (({ freshManager with sic := freshManager.sic.add sampleInfo, abm := otherAbm } :
          stakingManager).updateStakingCache 100).sm.sic.get 100 = some ⟨100, [31], [9]⟩ ∧
      (some ⟨100, [31], [9]⟩ : Option StakingInfo) ≠ some sampleInfo :=
  ⟨rfl, rfl, by decide⟩

/-- C12 (amended): whatever sequence of `getStakingInfo` calls,
`updateStakingCache` calls and handled head events follows, and whatever the
address book answers to their fetches, a key that is present in the cache keeps
the value stored under it, neither changed nor removed, provided the cache keeps
the first write or the sequence holds no direct `updateStakingCache` call for
that same key. -/
theorem cache_append_only (canon : Nat → Option Nat) (steps : List ManagerStep)
    (sm : stakingManager) (k : Nat) (v : StakingInfo) (h : sm.sic.get k = some v)
    (hkeep : sm.sic.lastWrite = false ∨
      ∀ step ∈ steps, step.call ≠ .updateStakingCache k) :
    (sm.afterSteps canon steps).sic.get k = some v := by
  induction steps generalizing sm with
  | nil => exact h
  | cons step rest ih =>
    unfold stakingManager.afterSteps
    apply ih
    · rcases afterStep_sic_absent canon sm step with hsame | ⟨stakingInfo, hadd, hwhy⟩
      · rw [hsame]
        exact h
      · rw [hadd]
        apply get_add_of_present sm.sic stakingInfo k v h
        rcases hwhy with habsent | hcall
        · right
          intro heq
          rw [heq, h] at habsent
          cases habsent
        · rcases hkeep with hfirst | hnone
          · exact Or.inl hfirst
          · right
            intro heq
            exact hnone step (List.mem_cons_self _ _) (heq ▸ hcall)
    · rcases hkeep with hfirst | hnone
      · left
        rw [afterStep_lastWrite, hfirst]
      · exact Or.inr (fun x hx => hnone x (List.mem_cons_of_mem _ hx))

theorem cache_append_only_witness :
    (({ freshManager with sic := freshManager.sic.add sampleInfo } : stakingManager).afterSteps
        sampleCalc
        [⟨otherAbm, weightedGh, .getStakingInfo 150⟩,
         ⟨failingAbm, weightedGh, .headEvent ⟨199⟩⟩,
         ⟨otherAbm, weightedGh, .updateStakingCache 200⟩,
         ⟨otherAbm, weightedGh, .headEvent ⟨200⟩⟩]).sic.get 100 = some sampleInfo ∧
      (({ freshManager with sic := (⟨[], false⟩ : stakingInfoCache).add sampleInfo } :
          stakingManager).afterSteps sampleCalc
        [⟨otherAbm, weightedGh, .updateStakingCache 100⟩,
         ⟨otherAbm, weightedGh, .getStakingInfo 150⟩]).sic.get 100 = some sampleInfo :=
  ⟨cache_append_only sampleCalc _
      ({ freshManager with sic := freshManager.sic.add sampleInfo } : stakingManager)
      100 sampleInfo rfl (Or.inr (by
        intro step hstep
        simp only [List.mem_cons, List.mem_singleton, List.not_mem_nil, or_false] at hstep
        rcases hstep with rfl | rfl | rfl | rfl <;> intro hcall <;> cases hcall)),
    cache_append_only sampleCalc _
      ({ freshManager with sic := (⟨[], false⟩ : stakingInfoCache).add sampleInfo } :
        stakingManager)
      100 sampleInfo rfl (Or.inl rfl)⟩

/-- C13: with the configured interval `I`, read both by the canonicalization of
`getStakingInfo` and by the background refresh, after any sequence of
`getStakingInfo` calls and handled head events on a cache whose keys are
canonical (the empty cache among them), every key `k` of the cache is an output
of the canonicalization, `k = k - (k mod I)`; and for every `uint64` height `H`
the key `getStakingInfo` looks up and the key the background refresh computes
for a head event at `H` are the same. -/
theorem cache_keys_canonical (I : Nat) (steps : List ManagerStep) (sm : stakingManager)
    (hstart : ∀ k ∈ sm.sic.keys, k = k - k % I)
    (hsteps : ∀ step ∈ steps, step.gh.StakingUpdateInterval = I ∧
      ∀ blockNum, step.call ≠ .updateStakingCache blockNum) :
    (∀ k ∈ (sm.afterSteps (CalcStakingBlockNumber I) steps).sic.keys, k = k - k % I) ∧
      ∀ H, H < 2 ^ 64 → CalcStakingBlockNumber I H = stakingBlockNum H I := by
  constructor
  · induction steps generalizing sm with
    | nil => exact hstart
    | cons step rest ih =>
      unfold stakingManager.afterSteps
      apply ih
      · obtain ⟨hint, hcall⟩ := hsteps step (List.mem_cons_self _ _)
        rcases afterStep_sic (CalcStakingBlockNumber I) sm step with hsame | ⟨info, hadd, hkey⟩
        · rw [hsame]
          exact hstart
        · rw [hadd]
          intro k hk
          rcases mem_keys_add sm.sic info k hk with hnew | hold
          · subst hnew
            cases hcases : step.call with
            | getStakingInfo blockNum =>
              rw [hcases] at hkey
              simp only [CalcStakingBlockNumber] at hkey
              by_cases hzero : I = 0
              · simp [hzero] at hkey
              · simp only [hzero, if_false, Option.some.injEq] at hkey
                rw [← hkey]
                exact sub_mod_canonical I blockNum
            | updateStakingCache blockNum => exact absurd hcases (hcall blockNum)
            | headEvent ev =>
              rw [hcases] at hkey
              simp only at hkey
              rw [hint] at hkey
              by_cases hzero : I = 0
              · simp [stakingBlockNum, hzero] at hkey
              · rw [stakingBlockNum_of_pos I _ (Nat.pos_of_ne_zero hzero) (NumberU64_lt ev),
                  Option.some.injEq] at hkey
                rw [← hkey]
                exact sub_mod_canonical I ev.NumberU64
          · exact hstart k hold
      · exact fun x hx => hsteps x (List.mem_cons_of_mem _ hx)
  · intro H hH
    by_cases hzero : I = 0
    · simp [CalcStakingBlockNumber, stakingBlockNum, hzero]
    · rw [stakingBlockNum_of_pos I H (Nat.pos_of_ne_zero hzero) hH]
      simp [CalcStakingBlockNumber, hzero]

theorem cache_keys_canonical_witness :
    (∀ k ∈ (freshManager.afterSteps (CalcStakingBlockNumber 100)
        [⟨okAbm, weightedGh, .getStakingInfo 150⟩,
         ⟨okAbm, weightedGh, .headEvent ⟨250⟩⟩]).sic.keys, k = k - k % 100) ∧
      (freshManager.afterSteps (CalcStakingBlockNumber 100)
        [⟨okAbm, weightedGh, .getStakingInfo 150⟩,
         ⟨okAbm, weightedGh, .headEvent ⟨250⟩⟩]).sic.keys = [200, 100] :=
  ⟨(cache_keys_canonical 100
      [⟨okAbm, weightedGh, .getStakingInfo 150⟩, ⟨okAbm, weightedGh, .headEvent ⟨250⟩⟩]
      freshManager (fun k hk => absurd hk (List.not_mem_nil k)) (by
        intro step hstep
        simp only [List.mem_cons, List.mem_singleton, List.not_mem_nil, or_false] at hstep
        rcases hstep with rfl | rfl
        · exact ⟨rfl, fun _ h => by cases h⟩
        · exact ⟨rfl, fun _ h => by cases h⟩)).1, rfl⟩

end reward
